import Mathlib

/-!
Verification model of the INI parser/encoder library (single header `ini.hpp`).

The embedding follows the source closely:

* Strings are modelled as `List Char` (`Str`).  The C++ code works on
  character-sized values; multi-byte UTF-8 sequences pass through opaquely,
  which at the model level corresponds to characters passing through
  unmodified.
* `std::map<std::string, _, std::less<>>` is modelled as an association list
  kept sorted by the strict lexicographic order `ltStr` (the order of
  `std::less` on strings, which compares character values).  `mapFind`
  models `find`, `mapInsert` models `insert` (which keeps an existing
  entry), and `mapSet` models assignment through `operator[]` (which
  overwrites).
* The parser's iterator is modelled by `Cursor`: `within rest` is an
  iterator with `rest` still to scan (`within []` is the `end` iterator)
  and `pastEnd` is an iterator that has been incremented past `end`.
  The C++ loops compare the iterator with `end` using `!=` only, so a
  past-the-end iterator re-enters the loop body and is dereferenced; the
  model returns `PR.oob` at such a dereference (undefined behavior in the
  C++ program).
* The main scanning loop `parseLoop` carries explicit fuel so that it is
  structurally recursive and computable by `decide`; one unit of fuel is
  one iteration of the outer `for` loop.  `parseLoop_fuel_sufficient`
  shows the fuel used by `parse` is never exhausted, so the fuel is a
  proof device only.
-/

namespace Ini

/-- Strings of the C++ code, as lists of characters. -/
abbrev Str := List Char

/-- `Parser::isWhitespace`: only space and horizontal tab count. -/
def isWhitespace (c : Char) : Bool := c = ' ' || c = '\t'

/-- `Parser::leftTrim`: erase the leading whitespace characters. -/
def leftTrim (s : Str) : Str := s.dropWhile isWhitespace

/-- `Parser::rightTrim`: erase the trailing whitespace characters. -/
def rightTrim (s : Str) : Str := (s.reverse.dropWhile isWhitespace).reverse

/-- `Parser::trim`: `leftTrim(rightTrim(s))`. -/
def trim (s : Str) : Str := leftTrim (rightTrim s)

/-- The strict order used by `std::map` on string keys (`std::less`,
character-value lexicographic comparison). -/
def ltStr : Str → Str → Bool
  | [], [] => false
  | [], _ :: _ => true
  | _ :: _, [] => false
  | a :: as, b :: bs =>
    if a.toNat < b.toNat then true
    else if b.toNat < a.toNat then false
    else ltStr as bs

/-- `std::map::find`, on the sorted-association-list model of a map. -/
def mapFind {α : Type} : List (Str × α) → Str → Option α
  | [], _ => none
  | (k2, v2) :: rest, k => if k = k2 then some v2 else mapFind rest k

/-- `std::map::insert`: inserts at the ordered position when the key is
absent and leaves the map unchanged when the key is present. -/
def mapInsert {α : Type} : List (Str × α) → Str → α → List (Str × α)
  | [], k, v => [(k, v)]
  | (k2, v2) :: rest, k, v =>
    if ltStr k k2 then (k, v) :: (k2, v2) :: rest
    else if ltStr k2 k then (k2, v2) :: mapInsert rest k v
    else (k2, v2) :: rest

/-- Assignment through `std::map::operator[]` (insert-or-overwrite): the
net effect of `map[k] = v`. -/
def mapSet {α : Type} : List (Str × α) → Str → α → List (Str × α)
  | [], k, v => [(k, v)]
  | (k2, v2) :: rest, k, v =>
    if ltStr k k2 then (k, v) :: (k2, v2) :: rest
    else if ltStr k2 k then (k2, v2) :: mapSet rest k v
    else (k2, v) :: rest

/-- `ini::Section`: a name and the ordered key/value map.  `Section()`
default-constructs with an empty name and no values. -/
structure Section where
  name : Str := []
  values : List (Str × Str) := []
  deriving DecidableEq

/-- `Section::hasValue`. -/
def Section.hasValue (s : Section) (key : Str) : Bool := (mapFind s.values key).isSome

/-- `Section::getName`. -/
def Section.getName (s : Section) : Str := s.name

/-- The mutable `Section::operator[]`: returns the stored value if present,
otherwise inserts an empty string under the key and returns it.  The
returned pair is (the value the reference points at, the updated section). -/
def Section.subscript (s : Section) (key : Str) : Str × Section :=
  match mapFind s.values key with
  | some v => (v, s)
  | none => ([], { s with values := mapInsert s.values key [] })

/-- The const `Section::operator[]`: throws `RangeError{"Value does not
exist"}` when the key is absent. -/
def Section.constSubscript (s : Section) (key : Str) : Except String Str :=
  match mapFind s.values key with
  | some v => .ok v
  | none => .error "Value does not exist"

/-- `Section::getValue(key, defaultValue)`: the stored value, or the
default when absent (never fails). -/
def Section.getValue (s : Section) (key defaultValue : Str) : Str :=
  (mapFind s.values key).getD defaultValue

/-- `Section::setValue`: `values.insert(std::make_pair(key, value))`.
Note this is `insert`, which keeps an existing entry unchanged. -/
def Section.setValue (s : Section) (key value : Str) : Section :=
  { s with values := mapInsert s.values key value }

/-- Writing through the reference returned by the mutable
`Section::operator[]`: the net effect of `section[key] = value`. -/
def Section.assign (s : Section) (key value : Str) : Section :=
  { s with values := mapSet s.values key value }

/-- `ini::Data`: the ordered section map. -/
structure Data where
  sections : List (Str × Section) := []
  deriving DecidableEq

/-- `Data::hasSection`. -/
def Data.hasSection (d : Data) (n : Str) : Bool := (mapFind d.sections n).isSome

/-- The mutable `Data::operator[]`: returns the stored section if present,
otherwise inserts a default-constructed `Section{}` under the name and
returns it.  The returned pair is (the section the reference points at,
the updated document). -/
def Data.subscript (d : Data) (n : Str) : Section × Data :=
  match mapFind d.sections n with
  | some s => (s, d)
  | none => (⟨[], []⟩, ⟨mapInsert d.sections n ⟨[], []⟩⟩)

/-- The const `Data::operator[]`: throws `RangeError{"Section does not
exist"}` when the name is absent. -/
def Data.constSubscript (d : Data) (n : Str) : Except String Section :=
  match mapFind d.sections n with
  | some s => .ok s
  | none => .error "Section does not exist"

/-- Writing through the reference returned by the mutable
`Data::operator[]`. -/
def Data.store (d : Data) (n : Str) (s : Section) : Data := ⟨mapSet d.sections n s⟩

/-- The parser statement `result[section] = Section{};`: auto-create via
the mutable `operator[]`, then assign a fresh empty section through the
reference. -/
def dataAssignSection (d : Data) (n : Str) : Data :=
  ((d.subscript n).2).store n ⟨[], []⟩

/-- The parser statement `result[section][key] = value;`: auto-create the
section, then assign the value through the two references. -/
def dataAssignValue (d : Data) (n k v : Str) : Data :=
  ((d.subscript n).2).store n (((d.subscript n).1).assign k v)

/-- The parser's iterator: `within rest` still has `rest` to scan
(`within []` is the `end` iterator); `pastEnd` has been incremented past
`end`, so it compares unequal to `end` and dereferencing it is an
out-of-bounds read. -/
inductive Cursor where
  | within (rest : List Char)
  | pastEnd
  deriving DecidableEq

/-- Measure of a cursor, used to bound the fuel of the main loop. -/
def curSize : Cursor → Nat
  | .within l => l.length + 1
  | .pastEnd => 1

/-- Result of running the parser: a document, a thrown `ParseError`, an
out-of-bounds iterator dereference (undefined behavior in the C++), or
exhausted fuel (a proof device; see `parseLoop_fuel_sufficient`). -/
inductive PR (α : Type) where
  | ok (a : α)
  | err (msg : String)
  | oob
  | fuelOut
  deriving DecidableEq

/-- The `while (iterator != end) { if newline { ++it; break; } ++it; }`
pattern used to discard a comment after `;` inside a section header or a
key/value line. -/
def skipToEol : List Char → Cursor
  | [] => .within []
  | c :: cs => if c = '\r' ∨ c = '\n' then .within cs else skipToEol cs

/-- The whole-line comment loop of the main dispatch:
`while (++iterator != end) { if newline { ++it; break; } }`.  It is
entered at the `;` character. -/
def commentLoop : List Char → Cursor
  | [] => .pastEnd
  | _ :: cs =>
    match cs with
    | [] => .within []
    | c :: cs2 => if c = '\r' ∨ c = '\n' then .within cs2 else commentLoop cs

/-- The section-header loop (`for (;;)` after the `[` has been consumed).
`sec` is the persistent `section` buffer of `Parser::parse` — note the
C++ never clears it, so the characters of the new header are appended to
the previous section name.  On end-of-input with the header closed the
C++ executes `++iterator` at `end`, producing a past-the-end iterator. -/
def sectionLoop : List Char → Str → Bool → Except String (Str × Cursor)
  | [], sec, parsedSection =>
    if parsedSection then .ok (sec, .pastEnd)
    else .error "Unexpected end of section"
  | c :: cs, sec, parsedSection =>
    if c = '\n' ∨ c = '\r' then
      if parsedSection then .ok (sec, .within cs)
      else .error "Unexpected end of section"
    else if c = ';' then
      if parsedSection then .ok (sec, skipToEol cs)
      else .error "Unexpected comment"
    else if c = ']' then sectionLoop cs sec true
    else if parsedSection then
      if c ≠ ' ' ∧ c ≠ '\t' then .error "Unexpected character after section"
      else sectionLoop cs sec true
    else sectionLoop cs (sec ++ [c]) false

/-- The key/value loop (`while (iterator != end)` in the final dispatch
branch).  The first `=` switches from key accumulation to value
accumulation; a second `=` throws; `;` discards the rest of the line. -/
def kvLoop : List Char → Str → Str → Bool → Except String (Str × Str × Cursor)
  | [], key, value, _ => .ok (key, value, .within [])
  | c :: cs, key, value, parsedKey =>
    if c = '\r' ∨ c = '\n' then .ok (key, value, .within cs)
    else if c = '=' then
      if parsedKey then .error "Unexpected character"
      else kvLoop cs key value true
    else if c = ';' then .ok (key, value, skipToEol cs)
    else if parsedKey then kvLoop cs key (value ++ [c]) parsedKey
    else kvLoop cs (key ++ [c]) value parsedKey

/-- The outer `for` loop of `Parser::parse`.  One unit of fuel is one
iteration; `sec` is the persistent (trimmed-in-place) `section` buffer.
A `pastEnd` cursor is not `end`, so the loop dereferences it: `PR.oob`. -/
def parseLoop : Nat → Cursor → Str → Data → PR Data
  | 0, _, _, _ => .fuelOut
  | _ + 1, .within [], _, result => .ok result
  | _ + 1, .pastEnd, _, _ => .oob
  | fuel + 1, .within (c :: cs), sec, result =>
    if isWhitespace c ∨ c = '\n' ∨ c = '\r' then
      parseLoop fuel (.within cs) sec result
    else if c = '[' then
      match sectionLoop cs sec false with
      | .ok (sec1, j) =>
        if trim sec1 = [] then .err "Invalid section name"
        else parseLoop fuel j (trim sec1) (dataAssignSection result (trim sec1))
      | .error m => .err m
    else if c = ';' then
      parseLoop fuel (commentLoop (c :: cs)) sec result
    else
      match kvLoop (c :: cs) [] [] false with
      | .ok (key, value, j) =>
        if key = [] then .err "Invalid key name"
        else parseLoop fuel j sec (dataAssignValue result sec (trim key) (trim value))
      | .error m => .err m

/-- The UTF-8 byte-order-mark constant. -/
def utf8ByteOrderMark : List Char := [Char.ofNat 0xEF, Char.ofNat 0xBB, Char.ofNat 0xBF]

/-- `Parser::hasByteOrderMark`, scanning the mark characters with an
early end-of-input check. -/
def hasBOMFrom : List Char → List Char → Bool
  | [], _ => true
  | _ :: _, [] => false
  | b :: bs, c :: cs => if c = b then hasBOMFrom bs cs else false

def hasByteOrderMark (inp : List Char) : Bool := hasBOMFrom utf8ByteOrderMark inp

/-- `ini::parse`: skip the byte-order mark when present, then run the
scanning loop starting from the empty main-section name and an empty
document.  The fuel `length + 1` is sufficient
(`parseLoop_fuel_sufficient`). -/
def parse (inp : List Char) : PR Data :=
  let start := if hasByteOrderMark inp then inp.drop 3 else inp
  parseLoop (start.length + 1) (.within start) [] ⟨[]⟩

/-- The inner loop of `ini::encode`: emit `key=value\n` for each entry. -/
def encodeValues : List (Str × Str) → Str
  | [] => []
  | (k, v) :: rest => k ++ '=' :: (v ++ '\n' :: encodeValues rest)

/-- The outer loop of `ini::encode`: emit `[name]\n` for each section
with a non-empty name, then its entries. -/
def encodeSections : List (Str × Section) → Str
  | [] => []
  | (n, s) :: rest =>
    (if n = [] then [] else '[' :: (n ++ [']', '\n'])) ++
      encodeValues s.values ++ encodeSections rest

/-- `ini::encode`. -/
def encode (d : Data) (byteOrderMark : Bool) : Str :=
  (if byteOrderMark then utf8ByteOrderMark else []) ++ encodeSections d.sections

/-! ### Properties of the key order and the map operations -/

theorem ltStr_irrefl : ∀ a : Str, ltStr a a = false := by
  intro a
  induction a with
  | nil => rfl
  | cons c cs ih => simp [ltStr, ih]

theorem ltStr_asymm : ∀ a b : Str, ltStr a b = true → ltStr b a = false := by
  intro a
  induction a with
  | nil => intro b h; cases b <;> simp_all [ltStr]
  | cons c cs ih =>
    intro b h
    cases b with
    | nil => simp_all [ltStr]
    | cons d ds =>
      simp only [ltStr] at h ⊢
      rcases Nat.lt_trichotomy c.toNat d.toNat with h1 | h1 | h1
      · simp [h1, Nat.lt_asymm h1]
      · simp [h1, Nat.lt_irrefl] at h ⊢
        exact ih ds h
      · simp [h1, Nat.lt_asymm h1] at h

theorem ltStr_eq_of_not_lt : ∀ a b : Str, ltStr a b = false → ltStr b a = false → a = b := by
  intro a
  induction a with
  | nil => intro b h1 h2; cases b <;> simp_all [ltStr]
  | cons c cs ih =>
    intro b h1 h2
    cases b with
    | nil => simp_all [ltStr]
    | cons d ds =>
      simp only [ltStr] at h1 h2
      rcases Nat.lt_trichotomy c.toNat d.toNat with h | h | h
      · simp [h] at h1
      · have hc : c = d := Char.eq_of_val_eq (UInt32.eq_of_val_eq (Fin.ext h))
        subst hc
        simp [Nat.lt_irrefl] at h1 h2
        rw [ih ds h1 h2]
      · simp [h, Nat.lt_asymm h] at h2

theorem ltStr_ne : ∀ a b : Str, ltStr a b = true → a ≠ b := by
  intro a b h hab
  subst hab
  simp [ltStr_irrefl] at h

/-- Strict sortedness of an association list's keys: the representation
invariant every `std::map` value satisfies. -/
def sortedKeys {α : Type} (l : List (Str × α)) : Prop :=
  l.Pairwise (fun p q => ltStr p.1 q.1 = true)

theorem mapFind_mem {α : Type} : ∀ (l : List (Str × α)) (k : Str) (v : α),
    mapFind l k = some v → (k, v) ∈ l := by
  intro l
  induction l with
  | nil => intro k v h; simp [mapFind] at h
  | cons p rest ih =>
    intro k v h
    obtain ⟨k2, v2⟩ := p
    simp only [mapFind] at h
    by_cases hk : k = k2
    · simp [hk] at h
      simp [hk, h]
    · simp [hk] at h
      exact List.mem_cons_of_mem _ (ih k v h)

theorem mem_mapInsert {α : Type} : ∀ (l : List (Str × α)) (k : Str) (v : α) (p : Str × α),
    p ∈ mapInsert l k v → p ∈ l ∨ p = (k, v) := by
  intro l k v
  induction l with
  | nil => intro p h; simp [mapInsert] at h; simp [h]
  | cons q rest ih =>
    intro p h
    obtain ⟨k2, v2⟩ := q
    simp only [mapInsert] at h
    by_cases h1 : ltStr k k2
    · simp [h1] at h
      rcases h with h | h | h <;> simp [h]
    · by_cases h2 : ltStr k2 k
      · simp [h1, h2] at h
        rcases h with h | h
        · simp [h]
        · rcases ih p h with h3 | h3
          · exact Or.inl (List.mem_cons_of_mem _ h3)
          · exact Or.inr h3
      · simp [h1, h2] at h
        rcases h with h | h <;> simp [h]

theorem mem_mapSet {α : Type} : ∀ (l : List (Str × α)) (k : Str) (v : α) (p : Str × α),
    p ∈ mapSet l k v → p ∈ l ∨ p = (k, v) := by
  intro l k v
  induction l with
  | nil => intro p h; simp [mapSet] at h; simp [h]
  | cons q rest ih =>
    intro p h
    obtain ⟨k2, v2⟩ := q
    simp only [mapSet] at h
    by_cases h1 : ltStr k k2
    · simp [h1] at h
      rcases h with h | h | h <;> simp [h]
    · by_cases h2 : ltStr k2 k
      · simp [h1, h2] at h
        rcases h with h | h
        · simp [h]
        · rcases ih p h with h3 | h3
          · exact Or.inl (List.mem_cons_of_mem _ h3)
          · exact Or.inr h3
      · simp [h1, h2] at h
        have hk : k = k2 := ltStr_eq_of_not_lt k k2 (by simpa using h1) (by simpa using h2)
        rcases h with h | h
        · subst hk; simp [h]
        · exact Or.inl (List.mem_cons_of_mem _ h)

theorem mapFind_mapInsert_absent {α : Type} :
    ∀ (l : List (Str × α)) (k : Str) (v : α),
    mapFind l k = none → mapFind (mapInsert l k v) k = some v := by
  intro l k v
  induction l with
  | nil => intro _; simp [mapInsert, mapFind]
  | cons q rest ih =>
    intro h
    obtain ⟨k2, v2⟩ := q
    simp only [mapFind] at h
    by_cases hk : k = k2
    · simp [hk] at h
    · simp [hk] at h
      simp only [mapInsert]
      by_cases h1 : ltStr k k2
      · simp [h1, mapFind]
      · by_cases h2 : ltStr k2 k
        · simp [h1, h2, mapFind, hk, ih h]
        · exact absurd (ltStr_eq_of_not_lt k k2 (by simpa using h1) (by simpa using h2)) hk

theorem mapInsert_present {α : Type} :
    ∀ (l : List (Str × α)) (k : Str) (v w : α),
    sortedKeys l → mapFind l k = some w → mapInsert l k v = l := by
  intro l k v w
  induction l with
  | nil => intro _ h; simp [mapFind] at h
  | cons q rest ih =>
    intro hs h
    obtain ⟨k2, v2⟩ := q
    simp only [mapFind] at h
    simp only [sortedKeys, List.pairwise_cons] at hs
    by_cases hk : k = k2
    · subst hk
      simp only [mapInsert, ltStr_irrefl, Bool.false_eq_true, if_false]
    · simp [hk] at h
      have hmem : (k, w) ∈ rest := mapFind_mem rest k w h
      have hlt : ltStr k2 k = true := hs.1 (k, w) hmem
      simp only [mapInsert, ltStr_asymm k2 k hlt, Bool.false_eq_true, if_false, hlt, if_true]
      rw [ih hs.2 h]

theorem mapFind_mapSet {α : Type} : ∀ (l : List (Str × α)) (k : Str) (v : α),
    mapFind (mapSet l k v) k = some v := by
  intro l k v
  induction l with
  | nil => simp [mapSet, mapFind]
  | cons q rest ih =>
    obtain ⟨k2, v2⟩ := q
    simp only [mapSet]
    by_cases h1 : ltStr k k2
    · simp [h1, mapFind]
    · by_cases h2 : ltStr k2 k
      · have hk : k ≠ k2 := fun h => (ltStr_ne k2 k h2) h.symm
        simp [h1, h2, mapFind, hk, ih]
      · have hk : k = k2 := ltStr_eq_of_not_lt k k2 (by simpa using h1) (by simpa using h2)
        subst hk
        simp [ltStr_irrefl, mapFind]

/-! ### Cursor-size bounds for the scanning loops, and fuel discharge

Every loop of the parser leaves the cursor no further than one position
past the characters it was given, which bounds the fuel the outer loop needs.
-/

theorem skipToEol_size : ∀ l : List Char, curSize (skipToEol l) ≤ l.length + 1 := by
  intro l
  induction l with
  | nil => simp [skipToEol, curSize]
  | cons c cs ih =>
    simp only [skipToEol]
    by_cases h : c = '\r' ∨ c = '\n'
    · simp [h, curSize]
    · simp only [h, if_false]
      exact le_trans ih (by simp)

theorem commentLoop_size : ∀ (cs : List Char) (c : Char),
    curSize (commentLoop (c :: cs)) ≤ cs.length + 1 := by
  intro cs
  induction cs with
  | nil => intro c; simp [commentLoop, curSize]
  | cons c2 cs2 ih =>
    intro c
    simp only [commentLoop]
    by_cases h : c2 = '\r' ∨ c2 = '\n'
    · simp [h, curSize]
    · simp only [h, if_false]
      exact le_trans (ih c2) (by simp)

theorem sectionLoop_size : ∀ (l : List Char) (sec : Str) (b : Bool) (s2 : Str) (j : Cursor),
    sectionLoop l sec b = .ok (s2, j) → curSize j ≤ l.length + 1 := by
  intro l
  induction l with
  | nil =>
    intro sec b s2 j h
    simp only [sectionLoop] at h
    cases b with
    | true =>
      simp only [if_true, Except.ok.injEq, Prod.mk.injEq] at h
      obtain ⟨-, h⟩ := h
      simp [← h, curSize]
    | false => simp at h
  | cons c cs ih =>
    intro sec b s2 j h
    simp only [sectionLoop] at h
    by_cases h1 : c = '\n' ∨ c = '\r'
    · simp only [h1, if_true] at h
      cases b with
      | true =>
        simp only [if_true, Except.ok.injEq, Prod.mk.injEq] at h
        obtain ⟨-, h⟩ := h
        simp [← h, curSize]
      | false => simp at h
    · simp only [h1, if_false] at h
      by_cases h2 : c = ';'
      · simp only [h2, if_true] at h
        cases b with
        | true =>
          simp only [if_true, Except.ok.injEq, Prod.mk.injEq] at h
          obtain ⟨-, h⟩ := h
          rw [← h]
          exact le_trans (skipToEol_size cs) (by simp)
        | false => simp at h
      · simp only [h2, if_false] at h
        by_cases h3 : c = ']'
        · simp only [h3, if_true] at h
          exact le_trans (ih _ _ _ _ h) (by simp)
        · simp only [h3, if_false] at h
          cases b with
          | true =>
            simp only [if_true] at h
            by_cases h4 : c ≠ ' ' ∧ c ≠ '\t'
            · simp [h4] at h
            · simp only [h4, if_false] at h
              exact le_trans (ih _ _ _ _ h) (by simp)
          | false =>
            simp only [Bool.false_eq_true, if_false] at h
            exact le_trans (ih _ _ _ _ h) (by simp)

theorem kvLoop_size : ∀ (l : List Char) (k v : Str) (b : Bool) (k2 v2 : Str) (j : Cursor),
    kvLoop l k v b = .ok (k2, v2, j) → curSize j ≤ l.length + 1 := by
  intro l
  induction l with
  | nil =>
    intro k v b k2 v2 j h
    simp only [kvLoop, Except.ok.injEq, Prod.mk.injEq] at h
    obtain ⟨-, -, h⟩ := h
    simp [← h, curSize]
  | cons c cs ih =>
    intro k v b k2 v2 j h
    simp only [kvLoop] at h
    by_cases h1 : c = '\r' ∨ c = '\n'
    · simp only [h1, if_true, Except.ok.injEq, Prod.mk.injEq] at h
      obtain ⟨-, -, h⟩ := h
      simp [← h, curSize]
    · simp only [h1, if_false] at h
      by_cases h2 : c = '='
      · simp only [h2, if_true] at h
        cases b with
        | true => simp at h
        | false =>
          simp only [Bool.false_eq_true, if_false] at h
          exact le_trans (ih _ _ _ _ _ _ h) (by simp)
      · simp only [h2, if_false] at h
        by_cases h3 : c = ';'
        · simp only [h3, if_true, Except.ok.injEq, Prod.mk.injEq] at h
          obtain ⟨-, -, h⟩ := h
          rw [← h]
          exact le_trans (skipToEol_size cs) (by simp)
        · simp only [h3, if_false] at h
          cases b with
          | true =>
            simp only [if_true] at h
            exact le_trans (ih _ _ _ _ _ _ h) (by simp)
          | false =>
            simp only [Bool.false_eq_true, if_false] at h
            exact le_trans (ih _ _ _ _ _ _ h) (by simp)

theorem kvLoop_size_cons : ∀ (c : Char) (cs : List Char) (k v : Str) (b : Bool)
    (k2 v2 : Str) (j : Cursor),
    kvLoop (c :: cs) k v b = .ok (k2, v2, j) → curSize j ≤ cs.length + 1 := by
  intro c cs k v b k2 v2 j h
  simp only [kvLoop] at h
  by_cases h1 : c = '\r' ∨ c = '\n'
  · simp only [h1, if_true, Except.ok.injEq, Prod.mk.injEq] at h
    obtain ⟨-, -, h⟩ := h
    simp [← h, curSize]
  · simp only [h1, if_false] at h
    by_cases h2 : c = '='
    · simp only [h2, if_true] at h
      cases b with
      | true => simp at h
      | false =>
        simp only [Bool.false_eq_true, if_false] at h
        exact kvLoop_size _ _ _ _ _ _ _ h
    · simp only [h2, if_false] at h
      by_cases h3 : c = ';'
      · simp only [h3, if_true, Except.ok.injEq, Prod.mk.injEq] at h
        obtain ⟨-, -, h⟩ := h
        rw [← h]
        exact skipToEol_size cs
      · simp only [h3, if_false] at h
        cases b with
        | true =>
          simp only [if_true] at h
          exact kvLoop_size _ _ _ _ _ _ _ h
        | false =>
          simp only [Bool.false_eq_true, if_false] at h
          exact kvLoop_size _ _ _ _ _ _ _ h

theorem curSize_pos : ∀ cur : Cursor, 1 ≤ curSize cur := by
  intro cur
  cases cur <;> simp [curSize]

/-- The result of the main loop does not depend on the fuel, as long as
the fuel is at least the cursor size. -/
theorem parseLoop_fuel_irrel : ∀ (f g : Nat) (cur : Cursor) (sec : Str) (d : Data),
    curSize cur ≤ f → curSize cur ≤ g →
    parseLoop f cur sec d = parseLoop g cur sec d := by
  intro f
  induction f with
  | zero =>
    intro g cur sec d hf _
    exact absurd (le_trans (curSize_pos cur) hf) (by simp)
  | succ f ih =>
    intro g cur sec d hf hg
    cases g with
    | zero => exact absurd (le_trans (curSize_pos cur) hg) (by simp)
    | succ g =>
      cases cur with
      | pastEnd => rfl
      | within l =>
        cases l with
        | nil => rfl
        | cons c cs =>
          have hf2 : cs.length + 1 ≤ f := by simpa [curSize] using hf
          have hg2 : cs.length + 1 ≤ g := by simpa [curSize] using hg
          simp only [parseLoop]
          by_cases h1 : isWhitespace c ∨ c = '\n' ∨ c = '\r'
          · simp only [h1, if_true]
            exact ih g _ sec d (by simpa [curSize]) (by simpa [curSize])
          · simp only [h1, if_false]
            by_cases h2 : c = '['
            · simp only [h2, if_true]
              cases hsl : sectionLoop cs sec false with
              | ok p =>
                obtain ⟨sec1, j⟩ := p
                simp only []
                by_cases h3 : trim sec1 = []
                · simp [h3]
                · simp only [h3, if_false]
                  have hj := sectionLoop_size cs sec false sec1 j hsl
                  exact ih g _ _ _ (le_trans hj hf2) (le_trans hj hg2)
              | error m => rfl
            · simp only [h2, if_false]
              by_cases h3 : c = ';'
              · simp only [h3, if_true]
                have hj := commentLoop_size cs c
                exact ih g _ sec d (le_trans hj hf2) (le_trans hj hg2)
              · simp only [h3, if_false]
                cases hkv : kvLoop (c :: cs) [] [] false with
                | ok p =>
                  obtain ⟨key, value, j⟩ := p
                  simp only []
                  by_cases h4 : key = []
                  · simp [h4]
                  · simp only [h4, if_false]
                    have hj := kvLoop_size_cons c cs [] [] false key value j hkv
                    exact ih g _ sec _ (le_trans hj hf2) (le_trans hj hg2)
                | error m => rfl

/-- The main loop run with its canonical fuel (one unit per remaining
character, plus one).  By `parseLoop_fuel_irrel` this is the value of
`parseLoop` at every sufficient fuel. -/
def parseRun (cur : Cursor) (sec : Str) (d : Data) : PR Data :=
  parseLoop (curSize cur) cur sec d

theorem parseLoop_eq_parseRun (f : Nat) (cur : Cursor) (sec : Str) (d : Data)
    (hf : curSize cur ≤ f) : parseLoop f cur sec d = parseRun cur sec d :=
  parseLoop_fuel_irrel f (curSize cur) cur sec d hf (le_refl _)

theorem parse_eq_parseRun (inp : List Char) :
    parse inp = parseRun (.within (if hasByteOrderMark inp then inp.drop 3 else inp)) [] ⟨[]⟩ := by
  simp only [parse]
  exact parseLoop_eq_parseRun _ _ _ _ (by simp [curSize])

/-! ### Step equations for `parseRun` -/

theorem parseRun_nil (sec : Str) (d : Data) : parseRun (.within []) sec d = .ok d := rfl

theorem parseRun_pastEnd (sec : Str) (d : Data) : parseRun .pastEnd sec d = .oob := rfl

theorem parseRun_ws (c : Char) (cs : List Char) (sec : Str) (d : Data)
    (h : isWhitespace c ∨ c = '\n' ∨ c = '\r') :
    parseRun (.within (c :: cs)) sec d = parseRun (.within cs) sec d := by
  simp only [parseRun, curSize, List.length_cons, parseLoop, h, if_true]

theorem parseRun_sectionStep (c : Char) (cs : List Char) (sec sec1 : Str) (j : Cursor)
    (d : Data) (hc : c = '[')
    (hsl : sectionLoop cs sec false = .ok (sec1, j)) (hne : trim sec1 ≠ []) :
    parseRun (.within (c :: cs)) sec d =
      parseRun j (trim sec1) (dataAssignSection d (trim sec1)) := by
  subst hc
  have hdisp : ¬(isWhitespace '[' ∨ '[' = '\n' ∨ '[' = '\r') := by decide
  simp only [parseRun, curSize, List.length_cons, parseLoop, hdisp, if_false, if_true, hsl, hne]
  exact parseLoop_eq_parseRun _ _ _ _ (sectionLoop_size cs sec false sec1 j hsl)

theorem parseRun_commentStep (cs : List Char) (sec : Str) (d : Data) :
    parseRun (.within (';' :: cs)) sec d = parseRun (commentLoop (';' :: cs)) sec d := by
  have hdisp : ¬(isWhitespace ';' ∨ ';' = '\n' ∨ ';' = '\r') := by decide
  have hbr : ¬(';' = '[') := by decide
  simp only [parseRun, curSize, List.length_cons, parseLoop, hdisp, hbr, if_false, if_true]
  exact parseLoop_eq_parseRun _ _ _ _ (commentLoop_size cs ';')

theorem parseRun_kvStep (c : Char) (cs : List Char) (sec key value : Str) (j : Cursor)
    (d : Data)
    (hdisp : ¬(isWhitespace c ∨ c = '\n' ∨ c = '\r')) (hbr : c ≠ '[') (hsemi : c ≠ ';')
    (hkv : kvLoop (c :: cs) [] [] false = .ok (key, value, j)) (hkey : key ≠ []) :
    parseRun (.within (c :: cs)) sec d =
      parseRun j sec (dataAssignValue d sec (trim key) (trim value)) := by
  simp only [parseRun, curSize, List.length_cons, parseLoop, hdisp, hbr, hsemi, if_false, hkv, hkey]
  exact parseLoop_eq_parseRun _ _ _ _ (kvLoop_size_cons c cs [] [] false key value j hkv)

/-- With fuel at least the cursor size the main loop never exhausts its
fuel: the fuel is a proof device, not a behavior of the embedded code. -/
theorem parseLoop_fuel_sufficient : ∀ (f : Nat) (cur : Cursor) (sec : Str) (d : Data),
    curSize cur ≤ f → parseLoop f cur sec d ≠ .fuelOut := by
  intro f
  induction f with
  | zero =>
    intro cur sec d hf
    exact absurd (le_trans (curSize_pos cur) hf) (by simp)
  | succ f ih =>
    intro cur sec d hf
    cases cur with
    | pastEnd => simp [parseLoop]
    | within l =>
      cases l with
      | nil => simp [parseLoop]
      | cons c cs =>
        have hf2 : cs.length + 1 ≤ f := by simpa [curSize] using hf
        simp only [parseLoop]
        by_cases h1 : isWhitespace c ∨ c = '\n' ∨ c = '\r'
        · simp only [h1, if_true]
          exact ih _ sec d (by simpa [curSize])
        · simp only [h1, if_false]
          by_cases h2 : c = '['
          · simp only [h2, if_true]
            cases hsl : sectionLoop cs sec false with
            | ok p =>
              obtain ⟨sec1, j⟩ := p
              simp only []
              by_cases h3 : trim sec1 = []
              · simp [h3]
              · simp only [h3, if_false]
                exact ih _ _ _ (le_trans (sectionLoop_size cs sec false sec1 j hsl) hf2)
            | error m => simp
          · simp only [h2, if_false]
            by_cases h3 : c = ';'
            · simp only [h3, if_true]
              exact ih _ sec d (le_trans (commentLoop_size cs c) hf2)
            · simp only [h3, if_false]
              cases hkv : kvLoop (c :: cs) [] [] false with
              | ok p =>
                obtain ⟨key, value, j⟩ := p
                simp only []
                by_cases h4 : key = []
                · simp [h4]
                · simp only [h4, if_false]
                  exact ih _ sec _
                    (le_trans (kvLoop_size_cons c cs [] [] false key value j hkv) hf2)
              | error m => simp

/-! ### Accumulation behavior of the scanning loops -/

/-- A character with no structural role anywhere in the format: the
alphabet allowed inside canonical section names, keys and values.
Interior spaces and tabs are allowed; only leading/trailing whitespace is
excluded (by the `trim`-fixedness conditions below). -/
def canonChar (c : Char) : Prop :=
  c ≠ '=' ∧ c ≠ ';' ∧ c ≠ '[' ∧ c ≠ ']' ∧ c ≠ '\n' ∧ c ≠ '\r'

instance (c : Char) : Decidable (canonChar c) := by
  unfold canonChar
  infer_instance

theorem dropWhile_head_false {p : Char → Bool} : ∀ (X : List Char) (c : Char) (t : List Char),
    X.dropWhile p = c :: t → p c = false := by
  intro X
  induction X with
  | nil => intro c t h; simp at h
  | cons x xs ih =>
    intro c t h
    by_cases hx : p x
    · simp only [List.dropWhile_cons, hx, if_true] at h
      exact ih c t h
    · simp only [List.dropWhile_cons, hx, Bool.false_eq_true, if_false,
        List.cons.injEq] at h
      rw [← h.1]
      simpa using hx

/-- The first character of a `trim`-fixed non-empty string is not
whitespace. -/
theorem trim_fix_head_not_ws (c : Char) (l : Str) (h : trim (c :: l) = c :: l) :
    isWhitespace c = false := by
  simp only [trim, leftTrim] at h
  exact dropWhile_head_false (rightTrim (c :: l)) c l h

/-- `skipToEol` consumes everything when the rest of the line is free of
line breaks. -/
theorem skipToEol_all : ∀ l : List Char, (∀ c ∈ l, c ≠ '\r' ∧ c ≠ '\n') →
    skipToEol l = .within [] := by
  intro l
  induction l with
  | nil => intro _; rfl
  | cons c cs ih =>
    intro h
    have hc := h c (List.mem_cons_self c cs)
    simp only [skipToEol, hc.1, hc.2, or_self, if_false]
    exact ih fun x hx => h x (List.mem_cons_of_mem c hx)

/-- A character a key/value line scan accumulates rather than acting on:
anything other than `=`, `;` and the line breaks. -/
def entryChar (c : Char) : Prop := c ≠ '=' ∧ c ≠ ';' ∧ c ≠ '\r' ∧ c ≠ '\n'

instance (c : Char) : Decidable (entryChar c) := by
  unfold entryChar
  infer_instance

theorem canonChar_entryChar {c : Char} (h : canonChar c) : entryChar c :=
  ⟨h.1, h.2.1, h.2.2.2.2.2, h.2.2.2.2.1⟩

/-- A character the section-header scan accumulates rather than acting
on: anything other than `;`, `]` and the line breaks (spaces and tabs
included). -/
def headerChar (c : Char) : Prop := c ≠ ';' ∧ c ≠ ']' ∧ c ≠ '\n' ∧ c ≠ '\r'

instance (c : Char) : Decidable (headerChar c) := by
  unfold headerChar
  infer_instance

theorem canonChar_headerChar {c : Char} (h : canonChar c) : headerChar c :=
  ⟨h.2.1, h.2.2.2.1, h.2.2.2.2.1, h.2.2.2.2.2⟩

/-- Key accumulation: before the `=`, entry characters are appended to the
key buffer one by one. -/
theorem kvLoop_key_acc : ∀ (L : Str) (suf : List Char) (key value : Str),
    (∀ c ∈ L, entryChar c) →
    kvLoop (L ++ suf) key value false = kvLoop suf (key ++ L) value false := by
  intro L
  induction L with
  | nil => intro suf key value _; simp
  | cons c L2 ih =>
    intro suf key value h
    have hc := h c (List.mem_cons_self c L2)
    have h1 : ¬(c = '\r' ∨ c = '\n') := by simp [hc.2.2.1, hc.2.2.2]
    simp only [List.cons_append, kvLoop, h1, hc.1, hc.2.1, if_false,
      Bool.false_eq_true, List.append_eq]
    rw [ih suf (key ++ [c]) value fun x hx => h x (List.mem_cons_of_mem c hx)]
    simp

/-- Value accumulation: after the `=`, entry characters are appended to
the value buffer one by one. -/
theorem kvLoop_value_acc : ∀ (L : Str) (suf : List Char) (key value : Str),
    (∀ c ∈ L, entryChar c) →
    kvLoop (L ++ suf) key value true = kvLoop suf key (value ++ L) true := by
  intro L
  induction L with
  | nil => intro suf key value _; simp
  | cons c L2 ih =>
    intro suf key value h
    have hc := h c (List.mem_cons_self c L2)
    have h1 : ¬(c = '\r' ∨ c = '\n') := by simp [hc.2.2.1, hc.2.2.2]
    simp only [List.cons_append, kvLoop, h1, hc.1, hc.2.1, if_false, if_true, List.append_eq]
    rw [ih suf key (value ++ [c]) fun x hx => h x (List.mem_cons_of_mem c hx)]
    simp

/-- Section-name accumulation: before the `]`, header characters (spaces
and tabs included) are appended to the persistent section buffer one by
one. -/
theorem sectionLoop_acc : ∀ (L : Str) (suf : List Char) (sec : Str),
    (∀ c ∈ L, headerChar c) →
    sectionLoop (L ++ suf) sec false = sectionLoop suf (sec ++ L) false := by
  intro L
  induction L with
  | nil => intro suf sec _; simp
  | cons c L2 ih =>
    intro suf sec h
    have hc := h c (List.mem_cons_self c L2)
    have h1 : ¬(c = '\n' ∨ c = '\r') := by simp [hc.2.2.1, hc.2.2.2]
    simp only [List.cons_append, sectionLoop, h1, hc.1, hc.2.1, if_false,
      Bool.false_eq_true, List.append_eq]
    rw [ih suf (sec ++ [c]) fun x hx => h x (List.mem_cons_of_mem c hx)]
    simp

/-! ### Canonical texts and the documents they denote

The round-trip claim speaks about texts in canonical form: `key=value`
lines and `[name]` header lines.  `canonText` renders such a text;
`canonData` is the document it denotes.
-/

/-- One canonical `key=value` entry line, newline terminated. -/
def canonLine (e : Str × Str) : Str := e.1 ++ '=' :: (e.2 ++ ['\n'])

/-- A block of canonical entry lines. -/
def canonLines : List (Str × Str) → Str
  | [] => []
  | e :: es => canonLine e ++ canonLines es

/-- A canonical text: the main section's entry lines, then optionally one
`[name]` header line followed by that section's entry lines. -/
def canonText (main : List (Str × Str)) (sect : Option (Str × List (Str × Str))) : Str :=
  canonLines main ++
    match sect with
    | none => []
    | some (n, es) => '[' :: (n ++ ']' :: '\n' :: canonLines es)

/-- Side conditions on a canonical entry block: non-empty keys, keys and
values without leading/trailing whitespace (`trim`-fixed) and without the
structural characters (interior spaces and tabs are allowed), keys
strictly increasing. -/
def canonEntries (es : List (Str × Str)) : Prop :=
  (∀ e ∈ es, e.1 ≠ [] ∧ trim e.1 = e.1 ∧ trim e.2 = e.2 ∧
    (∀ c ∈ e.1, canonChar c) ∧ (∀ c ∈ e.2, canonChar c)) ∧
    es.Pairwise (fun a b => ltStr a.1 b.1 = true)

/-- Side conditions on a canonical section name: non-empty, `trim`-fixed,
and without structural characters (interior whitespace allowed). -/
def canonName (n : Str) : Prop := n ≠ [] ∧ trim n = n ∧ ∀ c ∈ n, canonChar c

instance (es : List (Str × Str)) : Decidable (canonEntries es) := by
  unfold canonEntries
  infer_instance

instance (n : Str) : Decidable (canonName n) := by
  unfold canonName
  infer_instance

/-- The document denoted by a canonical text. -/
def canonData (main : List (Str × Str)) (sect : Option (Str × List (Str × Str))) : Data :=
  ⟨(if main = [] then [] else [([], ⟨[], main⟩)]) ++
    match sect with
    | none => []
    | some (n, es) => [(n, ⟨[], es⟩)]⟩

/-- Iterated `result[section][key] = value` assignments, in entry order. -/
def applyEntries (d : Data) (sec : Str) : List (Str × Str) → Data
  | [] => d
  | e :: es => applyEntries (dataAssignValue d sec e.1 e.2) sec es

/-- Consuming one canonical entry line stores the entry in the current
section. -/
theorem parseRun_entry (k v : Str) (rest : List Char) (sec : Str) (d : Data)
    (hk : k ≠ []) (hkt : trim k = k) (hvt : trim v = v)
    (hkp : ∀ c ∈ k, canonChar c) (hvp : ∀ c ∈ v, canonChar c) :
    parseRun (.within (canonLine (k, v) ++ rest)) sec d =
      parseRun (.within rest) sec (dataAssignValue d sec k v) := by
  have hshape : canonLine (k, v) ++ rest = k ++ '=' :: (v ++ '\n' :: rest) := by
    simp [canonLine]
  rw [hshape]
  cases k with
  | nil => exact absurd rfl hk
  | cons c k2 =>
    have hc := hkp c (List.mem_cons_self c k2)
    have hcw : isWhitespace c = false := trim_fix_head_not_ws c k2 hkt
    have hkv : kvLoop ((c :: k2) ++ '=' :: (v ++ '\n' :: rest)) [] [] false =
        .ok (c :: k2, v, .within rest) := by
      rw [kvLoop_key_acc (c :: k2) _ [] [] fun x hx => canonChar_entryChar (hkp x hx)]
      have h1 : ¬(('=' : Char) = '\r' ∨ ('=' : Char) = '\n') := by decide
      simp only [kvLoop, h1, if_false, if_true, Bool.false_eq_true, List.nil_append]
      rw [kvLoop_value_acc v _ (c :: k2) [] fun x hx => canonChar_entryChar (hvp x hx)]
      simp [kvLoop]
    have hdisp : ¬(isWhitespace c ∨ c = '\n' ∨ c = '\r') := by
      simp [hcw, hc.2.2.2.2.1, hc.2.2.2.2.2]
    rw [List.cons_append] at hkv ⊢
    rw [parseRun_kvStep c (k2 ++ '=' :: (v ++ '\n' :: rest)) sec (c :: k2) v
      (.within rest) d hdisp hc.2.2.1 hc.2.1 hkv (by simp)]
    rw [hkt, hvt]

/-- Consuming a block of canonical entry lines performs the corresponding
assignments in order. -/
theorem parseRun_entries : ∀ (es : List (Str × Str)) (rest : List Char) (sec : Str) (d : Data),
    (∀ e ∈ es, e.1 ≠ [] ∧ trim e.1 = e.1 ∧ trim e.2 = e.2 ∧
      (∀ c ∈ e.1, canonChar c) ∧ (∀ c ∈ e.2, canonChar c)) →
    parseRun (.within (canonLines es ++ rest)) sec d =
      parseRun (.within rest) sec (applyEntries d sec es) := by
  intro es
  induction es with
  | nil => intro rest sec d _; simp [canonLines, applyEntries]
  | cons e es2 ih =>
    intro rest sec d h
    obtain ⟨k, v⟩ := e
    have he := h (k, v) (List.mem_cons_self _ es2)
    simp only [canonLines, List.append_assoc]
    rw [parseRun_entry k v (canonLines es2 ++ rest) sec d he.1 he.2.1 he.2.2.1
      he.2.2.2.1 he.2.2.2.2]
    rw [ih rest sec _ fun x hx => h x (List.mem_cons_of_mem _ hx)]
    simp [applyEntries]

/-- Consuming a canonical header line when the persistent section buffer
is empty installs a fresh empty section under the header name. -/
theorem parseRun_header (n : Str) (rest : List Char) (d : Data) (hn : canonName n) :
    parseRun (.within ('[' :: (n ++ ']' :: '\n' :: rest))) [] d =
      parseRun (.within rest) n (dataAssignSection d n) := by
  have hsl : sectionLoop (n ++ ']' :: '\n' :: rest) [] false = .ok (n, .within rest) := by
    have := sectionLoop_acc n (']' :: '\n' :: rest) []
      fun x hx => canonChar_headerChar (hn.2.2 x hx)
    rw [List.nil_append] at this
    rw [this]
    simp [sectionLoop]
  have htrim : trim n = n := hn.2.1
  rw [parseRun_sectionStep '[' (n ++ ']' :: '\n' :: rest) [] n (.within rest) d rfl hsl
    (by rw [htrim]; exact hn.1)]
  rw [htrim]

/-! ### Shape of the document built by canonical assignments -/

theorem ltStr_nil_right : ∀ a : Str, ltStr a [] = false := by
  intro a; cases a <;> rfl

theorem ltStr_nil_left : ∀ a : Str, a ≠ [] → ltStr [] a = true := by
  intro a h
  cases a with
  | nil => exact absurd rfl h
  | cons c cs => rfl

theorem mapSet_append {α : Type} : ∀ (l : List (Str × α)) (k : Str) (v : α),
    (∀ p ∈ l, ltStr p.1 k = true) → mapSet l k v = l ++ [(k, v)] := by
  intro l k v
  induction l with
  | nil => intro _; rfl
  | cons q rest ih =>
    intro h
    obtain ⟨k2, v2⟩ := q
    have hq : ltStr k2 k = true := h (k2, v2) (List.mem_cons_self _ rest)
    simp only [mapSet, ltStr_asymm k2 k hq, Bool.false_eq_true, if_false, hq, if_true,
      List.cons_append, List.cons.injEq, true_and]
    exact ih fun x hx => h x (List.mem_cons_of_mem _ hx)

theorem mapFind_last {α : Type} : ∀ (l : List (Str × α)) (k : Str) (s : α),
    (∀ p ∈ l, ltStr p.1 k = true) → mapFind (l ++ [(k, s)]) k = some s := by
  intro l k s
  induction l with
  | nil => intro _; simp [mapFind]
  | cons q rest ih =>
    intro h
    obtain ⟨k2, v2⟩ := q
    have hq : ltStr k2 k = true := h (k2, v2) (List.mem_cons_self _ rest)
    have hne : k ≠ k2 := fun he => ltStr_ne k2 k hq he.symm
    simp only [List.cons_append, mapFind, hne, if_false]
    exact ih fun x hx => h x (List.mem_cons_of_mem _ hx)

theorem mapSet_last {α : Type} : ∀ (l : List (Str × α)) (k : Str) (s s2 : α),
    (∀ p ∈ l, ltStr p.1 k = true) → mapSet (l ++ [(k, s)]) k s2 = l ++ [(k, s2)] := by
  intro l k s s2
  induction l with
  | nil => intro _; simp [mapSet, ltStr_irrefl]
  | cons q rest ih =>
    intro h
    obtain ⟨k2, v2⟩ := q
    have hq : ltStr k2 k = true := h (k2, v2) (List.mem_cons_self _ rest)
    simp only [List.cons_append, mapSet, ltStr_asymm k2 k hq, Bool.false_eq_true, if_false,
      hq, if_true, List.cons.injEq, true_and]
    exact ih fun x hx => h x (List.mem_cons_of_mem _ hx)

/-- Assigning strictly increasing keys into the last section of a document
appends the entries in order. -/
theorem applyEntries_build : ∀ (es : List (Str × Str)) (pre : List (Str × Section))
    (sec : Str) (S : Section),
    (∀ p ∈ pre, ltStr p.1 sec = true) →
    (∀ q ∈ S.values, ∀ e ∈ es, ltStr q.1 e.1 = true) →
    es.Pairwise (fun a b => ltStr a.1 b.1 = true) →
    applyEntries ⟨pre ++ [(sec, S)]⟩ sec es =
      ⟨pre ++ [(sec, { S with values := S.values ++ es })]⟩ := by
  intro es
  induction es with
  | nil => intro pre sec S _ _ _; simp [applyEntries]
  | cons e es2 ih =>
    intro pre sec S hpre hvals hsort
    obtain ⟨k, v⟩ := e
    simp only [applyEntries]
    have hfind : mapFind (pre ++ [(sec, S)]) sec = some S := mapFind_last pre sec S hpre
    have hassign : dataAssignValue ⟨pre ++ [(sec, S)]⟩ sec k v =
        ⟨pre ++ [(sec, { S with values := S.values ++ [(k, v)] })]⟩ := by
      simp only [dataAssignValue, Data.subscript, hfind, Data.store, Section.assign]
      rw [mapSet_append S.values k v fun q hq =>
        hvals q hq (k, v) (List.mem_cons_self _ es2)]
      exact congrArg Data.mk (mapSet_last pre sec S _ hpre)
    rw [hassign]
    rw [ih pre sec { S with values := S.values ++ [(k, v)] } hpre
      (by
        intro q hq e2 he2
        simp only [List.mem_append, List.mem_singleton] at hq
        rcases hq with hq | hq
        · exact hvals q hq e2 (List.mem_cons_of_mem _ he2)
        · subst hq
          exact (List.pairwise_cons.mp hsort).1 e2 he2)
      (List.pairwise_cons.mp hsort).2]
    simp

/-- The document built by the main-section entries of a canonical text. -/
theorem applyEntries_main (main : List (Str × Str)) (h : canonEntries main) :
    applyEntries ⟨[]⟩ [] main =
      ⟨if main = [] then [] else [([], ⟨[], main⟩)]⟩ := by
  cases main with
  | nil => rfl
  | cons e es2 =>
    obtain ⟨k, v⟩ := e
    simp only [applyEntries]
    have hstart : dataAssignValue ⟨[]⟩ [] k v = ⟨[([], ⟨[], [(k, v)]⟩)]⟩ := rfl
    rw [hstart]
    have := applyEntries_build es2 [] [] ⟨[], [(k, v)]⟩ (by simp)
      (by
        intro q hq e2 he2
        simp only [List.mem_singleton] at hq
        subst hq
        exact (List.pairwise_cons.mp h.2).1 e2 he2)
      (List.pairwise_cons.mp h.2).2
    rw [List.nil_append] at this
    rw [this]
    simp

/-- Installing a fresh section under a canonical (non-empty) name appends
it after the main section. -/
theorem dataAssignSection_canon (n : Str) (hn : n ≠ []) :
    ∀ pre : List (Str × Section), (pre = [] ∨ ∃ M, pre = [([], M)]) →
    dataAssignSection ⟨pre⟩ n = ⟨pre ++ [(n, ⟨[], []⟩)]⟩ := by
  intro pre hpre
  rcases hpre with h | ⟨M, h⟩ <;> subst h
  · simp [dataAssignSection, Data.subscript, mapFind, mapInsert, Data.store, mapSet,
      ltStr_irrefl]
  · simp only [dataAssignSection, Data.subscript, mapFind, mapInsert, Data.store, mapSet,
      ltStr_irrefl, ltStr_nil_right, ltStr_nil_left n hn, hn, if_false, if_true,
      Bool.false_eq_true]
    simp [hn]

/-! ### Encoding canonical documents -/

theorem encodeValues_eq_canonLines : ∀ es : List (Str × Str), encodeValues es = canonLines es := by
  intro es
  induction es with
  | nil => rfl
  | cons e es2 ih =>
    obtain ⟨k, v⟩ := e
    simp [encodeValues, canonLines, canonLine, ih]

theorem encodeSections_append : ∀ l1 l2 : List (Str × Section),
    encodeSections (l1 ++ l2) = encodeSections l1 ++ encodeSections l2 := by
  intro l1 l2
  induction l1 with
  | nil => rfl
  | cons p rest ih =>
    obtain ⟨n, s⟩ := p
    simp [encodeSections, ih]

/-- Encoding the document denoted by a canonical text reproduces the text. -/
theorem encode_canonData (main : List (Str × Str)) (sect : Option (Str × List (Str × Str)))
    (hsect : ∀ n es, sect = some (n, es) → n ≠ []) :
    encode (canonData main sect) false = canonText main sect := by
  have hmain : encodeSections (if main = [] then [] else [([], ⟨[], main⟩)]) =
      canonLines main := by
    by_cases hm : main = []
    · simp [hm, encodeSections, canonLines]
    · simp only [hm, if_false]
      simp [encodeSections, encodeValues_eq_canonLines]
  cases sect with
  | none =>
    simp only [encode, canonData, canonText]
    simpa using hmain
  | some p =>
    obtain ⟨n, es⟩ := p
    have hn : n ≠ [] := hsect n es rfl
    simp only [encode, canonData, canonText, List.nil_append]
    rw [encodeSections_append, hmain]
    simp [encodeSections, hn, encodeValues_eq_canonLines]

/-- Parsing a canonical text (that does not begin with the byte-order
mark) produces exactly the document it denotes. -/
theorem parse_canonText (main : List (Str × Str)) (sect : Option (Str × List (Str × Str)))
    (hmain : canonEntries main)
    (hsect : ∀ n es, sect = some (n, es) → canonName n ∧ canonEntries es)
    (hbom : hasByteOrderMark (canonText main sect) = false) :
    parse (canonText main sect) = .ok (canonData main sect) := by
  rw [parse_eq_parseRun, hbom]
  simp only [Bool.false_eq_true, if_false]
  simp only [canonText]
  rw [parseRun_entries main _ [] ⟨[]⟩ hmain.1]
  rw [applyEntries_main main hmain]
  cases sect with
  | none =>
    simp only [parseRun_nil, canonData, List.append_nil]
  | some p =>
    obtain ⟨n, es⟩ := p
    obtain ⟨hn, hes⟩ := hsect n es rfl
    rw [parseRun_header n (canonLines es) _ hn]
    rw [dataAssignSection_canon n hn.1 _ (by
      by_cases hm : main = []
      · exact Or.inl (by simp [hm])
      · exact Or.inr ⟨⟨[], main⟩, by simp [hm]⟩)]
    have hes2 : canonLines es = canonLines es ++ [] := by simp
    rw [hes2, parseRun_entries es [] n _ hes.1]
    rw [applyEntries_build es _ n ⟨[], []⟩
      (by
        intro p hp
        by_cases hm : main = []
        · simp [hm] at hp
        · simp only [hm, if_false, List.mem_singleton] at hp
          subst hp
          exact ltStr_nil_left n hn.1)
      (by intro q hq; simp at hq)
      hes.2]
    simp [parseRun_nil, canonData]

/-! ### Invariants of every document the parser can build -/

theorem mem_trim : ∀ (l : Str) (c : Char), c ∈ trim l → c ∈ l := by
  intro l c h
  simp only [trim, leftTrim, rightTrim] at h
  have h1 := (List.dropWhile_sublist isWhitespace).subset h
  rw [List.mem_reverse] at h1
  have h2 := (List.dropWhile_sublist isWhitespace).subset h1
  rwa [List.mem_reverse] at h2

/-- The value buffer of the key/value loop only ever receives characters
other than `=`: a second `=` is an error, not part of the value. -/
theorem kvLoop_value_chars : ∀ (l : List Char) (key value : Str) (b : Bool)
    (k2 v2 : Str) (j : Cursor),
    kvLoop l key value b = .ok (k2, v2, j) → (∀ c ∈ value, c ≠ '=') →
    ∀ c ∈ v2, c ≠ '=' := by
  intro l
  induction l with
  | nil =>
    intro key value b k2 v2 j h hv
    simp only [kvLoop, Except.ok.injEq, Prod.mk.injEq] at h
    obtain ⟨-, h, -⟩ := h
    subst h
    exact hv
  | cons c cs ih =>
    intro key value b k2 v2 j h hv
    simp only [kvLoop] at h
    by_cases h1 : c = '\r' ∨ c = '\n'
    · simp only [h1, if_true, Except.ok.injEq, Prod.mk.injEq] at h
      obtain ⟨-, h, -⟩ := h
      subst h
      exact hv
    · simp only [h1, if_false] at h
      by_cases h2 : c = '='
      · simp only [h2, if_true] at h
        cases b with
        | true => simp at h
        | false =>
          simp only [Bool.false_eq_true, if_false] at h
          exact ih _ _ _ _ _ _ h hv
      · simp only [h2, if_false] at h
        by_cases h3 : c = ';'
        · simp only [h3, if_true, Except.ok.injEq, Prod.mk.injEq] at h
          obtain ⟨-, h, -⟩ := h
          subst h
          exact hv
        · simp only [h3, if_false] at h
          cases b with
          | true =>
            simp only [if_true] at h
            refine ih _ _ _ _ _ _ h ?_
            intro x hx
            rcases List.mem_append.mp hx with hx | hx
            · exact hv x hx
            · rw [List.mem_singleton.mp hx]
              exact h2
          | false =>
            simp only [Bool.false_eq_true, if_false] at h
            exact ih _ _ _ _ _ _ h hv

/-- Sections reachable after `result[section] = Section{};`. -/
theorem dataAssignSection_mem (d : Data) (n : Str) (p : Str × Section)
    (h : p ∈ (dataAssignSection d n).sections) :
    p ∈ d.sections ∨ p = (n, ⟨[], []⟩) := by
  simp only [dataAssignSection, Data.subscript] at h
  cases hf : mapFind d.sections n with
  | some s =>
    rw [hf] at h
    simp only [Data.store] at h
    exact mem_mapSet d.sections n ⟨[], []⟩ p h
  | none =>
    rw [hf] at h
    simp only [Data.store] at h
    rcases mem_mapSet _ n ⟨[], []⟩ p h with h2 | h2
    · rcases mem_mapInsert d.sections n ⟨[], []⟩ p h2 with h3 | h3
      · exact Or.inl h3
      · exact Or.inr h3
    · exact Or.inr h2

/-- Sections reachable after `result[section][key] = value;`. -/
theorem dataAssignValue_mem (d : Data) (n k v : Str) (p : Str × Section)
    (h : p ∈ (dataAssignValue d n k v).sections) :
    p ∈ d.sections ∨ p = (n, (⟨[], []⟩ : Section)) ∨
      ∃ s, (mapFind d.sections n = some s ∨ s = (⟨[], []⟩ : Section)) ∧
        p = (n, s.assign k v) := by
  simp only [dataAssignValue, Data.subscript] at h
  cases hf : mapFind d.sections n with
  | some s =>
    rw [hf] at h
    simp only [Data.store] at h
    rcases mem_mapSet d.sections n (s.assign k v) p h with h2 | h2
    · exact Or.inl h2
    · exact Or.inr (Or.inr ⟨s, Or.inl rfl, h2⟩)
  | none =>
    rw [hf] at h
    simp only [Data.store] at h
    rcases mem_mapSet _ n ((⟨[], []⟩ : Section).assign k v) p h with h2 | h2
    · rcases mem_mapInsert d.sections n ⟨[], []⟩ p h2 with h3 | h3
      · exact Or.inl h3
      · exact Or.inr (Or.inl h3)
    · exact Or.inr (Or.inr ⟨⟨[], []⟩, Or.inr rfl, h2⟩)

/-- Every property of documents preserved by the two assignment forms of
the parser holds for every document the scanning loop returns. -/
theorem parseLoop_inv (P : Data → Prop)
    (hS : ∀ d n, P d → P (dataAssignSection d n))
    (hV : ∀ (d : Data) (n : Str) (l : List Char) (key value : Str) (j : Cursor),
      kvLoop l [] [] false = .ok (key, value, j) → P d →
      P (dataAssignValue d n (trim key) (trim value))) :
    ∀ (f : Nat) (cur : Cursor) (sec : Str) (d r : Data),
    P d → parseLoop f cur sec d = .ok r → P r := by
  intro f
  induction f with
  | zero => intro cur sec d r _ h; simp [parseLoop] at h
  | succ f ih =>
    intro cur sec d r hP h
    cases cur with
    | pastEnd => simp [parseLoop] at h
    | within l =>
      cases l with
      | nil =>
        simp only [parseLoop, PR.ok.injEq] at h
        subst h
        exact hP
      | cons c cs =>
        simp only [parseLoop] at h
        by_cases h1 : isWhitespace c ∨ c = '\n' ∨ c = '\r'
        · simp only [h1, if_true] at h
          exact ih _ sec d r hP h
        · simp only [h1, if_false] at h
          by_cases h2 : c = '['
          · simp only [h2, if_true] at h
            cases hsl : sectionLoop cs sec false with
            | ok p =>
              obtain ⟨sec1, j⟩ := p
              rw [hsl] at h
              simp only [] at h
              by_cases h3 : trim sec1 = []
              · simp [h3] at h
              · simp only [h3, if_false] at h
                exact ih _ _ _ r (hS d (trim sec1) hP) h
            | error m => rw [hsl] at h; simp at h
          · simp only [h2, if_false] at h
            by_cases h3 : c = ';'
            · simp only [h3, if_true] at h
              exact ih _ sec d r hP h
            · simp only [h3, if_false] at h
              cases hkv : kvLoop (c :: cs) [] [] false with
              | ok p =>
                obtain ⟨key, value, j⟩ := p
                rw [hkv] at h
                simp only [] at h
                by_cases h4 : key = []
                · simp [h4] at h
                · simp only [h4, if_false] at h
                  exact ih _ sec _ r (hV d sec (c :: cs) key value j hkv hP) h
              | error m => rw [hkv] at h; simp at h

/-- `parseLoop_inv`, at the top level `parse` entry point. -/
theorem parse_inv (P : Data → Prop)
    (hS : ∀ d n, P d → P (dataAssignSection d n))
    (hV : ∀ (d : Data) (n : Str) (l : List Char) (key value : Str) (j : Cursor),
      kvLoop l [] [] false = .ok (key, value, j) → P d →
      P (dataAssignValue d n (trim key) (trim value)))
    (hinit : P ⟨[]⟩) :
    ∀ (inp : List Char) (d : Data), parse inp = .ok d → P d := by
  intro inp d h
  exact parseLoop_inv P hS hV _ _ _ _ d hinit h

/-! ### The claims -/

/-- Claim C1.  The claim says re-declaring a section header `[s]` installs
a fresh empty section under the trimmed header name `s` and makes `s` the
current section.  The code instead never clears the persistent `section`
buffer, so the second header's characters are appended to the previous
name: parsing `[s]\na=1\n[s]\nb=2\n` leaves section `s` with its old
entry `a=1` untouched and creates a distinct section `ss` holding `b=2`.
This theorem evaluates the parser at that failing input. -/
theorem claimC1_redeclared_section_appends :
    parse ("[s]\na=1\n[s]\nb=2\n".toList) =
      .ok ⟨[(['s'], ⟨[], [(['a'], ['1'])]⟩), (['s', 's'], ⟨[], [(['b'], ['2'])]⟩)]⟩ := by
  decide

/-- Claim C2.  Strict read-only lookup (the const `operator[]` of `Data`
and of `Section`, the spec's `getSection` / strict `getValue`) raises
`RangeError` exactly on absent names, while the auto-creating mutable
`operator[]` inserts an empty section (resp. empty string) and returns
it; on present names both return the stored entry. -/
theorem claimC2_strict_vs_autocreate :
    (∀ (d : Data) (n : Str), mapFind d.sections n = none →
      d.constSubscript n = .error "Section does not exist" ∧
      (d.subscript n).1 = ⟨[], []⟩ ∧
      (d.subscript n).2.hasSection n = true ∧
      mapFind (d.subscript n).2.sections n = some ⟨[], []⟩) ∧
    (∀ (d : Data) (n : Str) (s : Section), mapFind d.sections n = some s →
      d.constSubscript n = .ok s ∧ d.subscript n = (s, d)) ∧
    (∀ (s : Section) (k : Str), mapFind s.values k = none →
      s.constSubscript k = .error "Value does not exist" ∧
      (s.subscript k).1 = [] ∧
      (s.subscript k).2.hasValue k = true ∧
      mapFind (s.subscript k).2.values k = some []) ∧
    (∀ (s : Section) (k v : Str), mapFind s.values k = some v →
      s.constSubscript k = .ok v ∧ s.subscript k = (v, s)) := by
  refine ⟨?_, ?_, ?_, ?_⟩
  · intro d n h
    refine ⟨?_, ?_, ?_, ?_⟩ <;>
      simp [Data.constSubscript, Data.subscript, Data.hasSection, h,
        mapFind_mapInsert_absent d.sections n ⟨[], []⟩ h]
  · intro d n s h
    exact ⟨by simp [Data.constSubscript, h], by simp [Data.subscript, h]⟩
  · intro s k h
    refine ⟨?_, ?_, ?_, ?_⟩ <;>
      simp [Section.constSubscript, Section.subscript, Section.hasValue, h,
        mapFind_mapInsert_absent s.values k [] h]
  · intro s k v h
    exact ⟨by simp [Section.constSubscript, h], by simp [Section.subscript, h]⟩

/-- Witness for C2 at concrete inputs: an empty document and a section
holding only the key `k`. -/
theorem claimC2_witness :
    Data.constSubscript ⟨[]⟩ ['a'] = .error "Section does not exist" ∧
    (Data.subscript ⟨[]⟩ ['a']).2.hasSection ['a'] = true ∧
    Section.constSubscript ⟨[], [(['k'], ['v'])]⟩ ['k'] = .ok ['v'] ∧
    Section.constSubscript ⟨[], [(['k'], ['v'])]⟩ ['x'] = .error "Value does not exist" :=
  ⟨(claimC2_strict_vs_autocreate.1 ⟨[]⟩ ['a'] (by decide)).1,
   (claimC2_strict_vs_autocreate.1 ⟨[]⟩ ['a'] (by decide)).2.2.1,
   (claimC2_strict_vs_autocreate.2.2.2 ⟨[], [(['k'], ['v'])]⟩ ['k'] ['v'] (by decide)).1,
   (claimC2_strict_vs_autocreate.2.2.1 ⟨[], [(['k'], ['v'])]⟩ ['x'] (by decide)).1⟩

/-- Claim C3.  `parse "[s"` (end of input before the header is closed)
throws the `ParseError` "Unexpected end of section", as the claim says.
`parse "[s]"` (end of input directly after `]`), however, does not return
a document with one empty section `s`: after seeing end-of-input the code
runs `++iterator` past the end, the main loop's `iterator != end` guard
stays true, and the parser dereferences past the end of the input
(undefined behavior, `PR.oob` in the model). -/
theorem claimC3_header_at_eof :
    parse ("[s".toList) = .err "Unexpected end of section" ∧
    parse ("[s]".toList) = .oob := by
  decide

/-- Claim C4.  The claim says parse always terminates with a document or
a `ParseError` and never reads past the end of the input.  On any input
ending immediately after a closed section header the code increments its
iterator past `end` and then dereferences it — an out-of-bounds read
(undefined behavior; with pointer iterators the scan continues beyond the
buffer).  Model evaluation at such an input: -/
theorem claimC4_reads_past_end :
    parse ("a=b\n[s]".toList) = .oob := by
  decide

/-- Counterexample to claim C5 as stated.  The text `b=2\na=1\n` is in the
claim's canonical form (entry lines, no comments, no whitespace, no
special characters), yet `encode (parse text)` is `a=1\nb=2\n ≠ text`:
the encoder emits entries in key order, not input order. -/
theorem claimC5_counterexample :
    parse ("b=2\na=1\n".toList) =
      .ok ⟨[([], ⟨[], [(['a'], ['1']), (['b'], ['2'])]⟩)]⟩ ∧
    encode ⟨[([], ⟨[], [(['a'], ['1']), (['b'], ['2'])]⟩)]⟩ false ≠ "b=2\na=1\n".toList := by
  decide

/-- Claim C5, amended.  Round trip `encode (parse text) = text` holds for
canonical texts whose entry lines are listed in strictly increasing key
order within each section, with at most one section header (the parser's
un-cleared header buffer mangles a second header, see C1), non-empty keys
and header name, keys/values/name free of leading/trailing whitespace and
of the structural characters `=`, `;`, `[`, `]` and line breaks (interior
spaces and tabs are allowed and round-trip), and no leading byte-order
mark. -/
theorem claimC5_canonical_roundtrip (main : List (Str × Str))
    (sect : Option (Str × List (Str × Str)))
    (hmain : canonEntries main)
    (hsect : ∀ n es, sect = some (n, es) → canonName n ∧ canonEntries es)
    (hbom : hasByteOrderMark (canonText main sect) = false) :
    parse (canonText main sect) = .ok (canonData main sect) ∧
      encode (canonData main sect) false = canonText main sect :=
  ⟨parse_canonText main sect hmain hsect hbom,
   encode_canonData main sect fun n es h => ((hsect n es h).1).1⟩

/-- Witness for the amended C5 at the concrete canonical text
`a b=c d\n[s t]\nk 2=v w\n`, whose keys, values and section name all
contain interior spaces. -/
theorem claimC5_witness :
    parse (canonText [("a b".toList, "c d".toList)]
        (some ("s t".toList, [("k 2".toList, "v w".toList)]))) =
      .ok (canonData [("a b".toList, "c d".toList)]
        (some ("s t".toList, [("k 2".toList, "v w".toList)]))) ∧
    encode (canonData [("a b".toList, "c d".toList)]
        (some ("s t".toList, [("k 2".toList, "v w".toList)]))) false =
      canonText [("a b".toList, "c d".toList)]
        (some ("s t".toList, [("k 2".toList, "v w".toList)])) :=
  claimC5_canonical_roundtrip [("a b".toList, "c d".toList)]
    (some ("s t".toList, [("k 2".toList, "v w".toList)]))
    (by decide)
    (by
      rintro n es h
      cases h
      exact ⟨by decide, by decide⟩)
    (by decide)

/-- Counterexample to claim C6 as stated.  `setValue` is implemented with
`values.insert`, which keeps an existing entry: after
`setValue("k","1"); setValue("k","2")` the stored value is still `"1"`,
not the second value. -/
theorem claimC6_counterexample :
    Section.getValue
      (Section.setValue (Section.setValue ⟨[], []⟩ ['k'] ['1']) ['k'] ['2']) ['k'] [] ≠
      ['2'] := by
  decide

/-- Claim C6, amended.  `setValue` stores the value only when the key is
absent; on a present key it keeps the old value (first write wins).
Overwriting is what assignment through the mutable `operator[]` does:
there the last value always wins. -/
theorem claimC6_setValue_insert_semantics :
    (∀ (s : Section) (k v d : Str), mapFind s.values k = none →
      (s.setValue k v).getValue k d = v) ∧
    (∀ (s : Section) (k v w d : Str), sortedKeys s.values → mapFind s.values k = some w →
      (s.setValue k v).getValue k d = w) ∧
    (∀ (s : Section) (k v d : Str), (s.assign k v).getValue k d = v) := by
  refine ⟨?_, ?_, ?_⟩
  · intro s k v d h
    simp [Section.getValue, Section.setValue, mapFind_mapInsert_absent s.values k v h]
  · intro s k v w d hs h
    simp [Section.getValue, Section.setValue, mapInsert_present s.values k v w hs h, h]
  · intro s k v d
    simp [Section.getValue, Section.assign, mapFind_mapSet]

/-- Witness for the amended C6 at concrete sections. -/
theorem claimC6_witness :
    Section.getValue (Section.setValue ⟨[], []⟩ ['k'] ['1']) ['k'] [] = ['1'] ∧
    Section.getValue (Section.setValue ⟨[], [(['k'], ['1'])]⟩ ['k'] ['2']) ['k'] [] = ['1'] ∧
    Section.getValue (Section.assign ⟨[], [(['k'], ['1'])]⟩ ['k'] ['2']) ['k'] [] = ['2'] :=
  ⟨claimC6_setValue_insert_semantics.1 ⟨[], []⟩ ['k'] ['1'] [] (by decide),
   claimC6_setValue_insert_semantics.2.1 ⟨[], [(['k'], ['1'])]⟩ ['k'] ['2'] ['1'] []
     (by simp [sortedKeys]) (by decide),
   claimC6_setValue_insert_semantics.2.2 ⟨[], [(['k'], ['1'])]⟩ ['k'] ['2'] []⟩

/-- Claim C7.  In a key/value line the first `=` switches the loop from
key accumulation to value accumulation, a second `=` before the line ends
raises the `ParseError` "Unexpected character", and consequently no value
stored by `parse` ever contains `=`. -/
theorem claimC7_single_equals :
    (∀ (cs : List Char) (key value : Str),
      kvLoop ('=' :: cs) key value false = kvLoop cs key value true) ∧
    (∀ (cs : List Char) (key value : Str),
      kvLoop ('=' :: cs) key value true = .error "Unexpected character") ∧
    (∀ (inp : List Char) (d : Data) (n : Str) (s : Section) (q : Str × Str),
      parse inp = .ok d → (n, s) ∈ d.sections → q ∈ s.values → ∀ c ∈ q.2, c ≠ '=') := by
  refine ⟨fun cs key value => rfl, fun cs key value => rfl, ?_⟩
  intro inp d n s q hparse hmem hq
  have hinv := parse_inv
    (fun d2 => ∀ p ∈ d2.sections, ∀ q2 ∈ p.2.values, ∀ c ∈ q2.2, c ≠ '=')
    (by
      intro d2 n2 hP p hp q2 hq2 c hc
      rcases dataAssignSection_mem d2 n2 p hp with h | h
      · exact hP p h q2 hq2 c hc
      · subst h; simp at hq2)
    (by
      intro d2 n2 l key value j hkv hP p hp q2 hq2 c hc
      rcases dataAssignValue_mem d2 n2 (trim key) (trim value) p hp with h | h | ⟨s2, hs2, hp2⟩
      · exact hP p h q2 hq2 c hc
      · subst h; simp at hq2
      · subst hp2
        simp only [Section.assign] at hq2
        rcases mem_mapSet s2.values (trim key) (trim value) q2 hq2 with h2 | h2
        · rcases hs2 with hs2 | hs2
          · exact hP (n2, s2) (mapFind_mem d2.sections n2 s2 hs2) q2 h2 c hc
          · subst hs2; simp at h2
        · subst h2
          have hval : ∀ x ∈ value, x ≠ '=' :=
            kvLoop_value_chars l [] [] false key value j hkv (by simp)
          exact hval c (mem_trim value c hc))
    (by simp) inp d hparse
  exact hinv (n, s) hmem q hq

/-- Witness for C7: the second `=` of `a=b=c` is rejected, and the value
stored for `a` by `parse "a=b"` contains no `=`. -/
theorem claimC7_witness :
    kvLoop ('=' :: "c".toList) ['a'] ['b'] true = .error "Unexpected character" ∧
    (∀ c ∈ (['b'] : Str), c ≠ '=') :=
  ⟨claimC7_single_equals.2.1 "c".toList ['a'] ['b'],
   claimC7_single_equals.2.2 ("a=b".toList) ⟨[([], ⟨[], [(['a'], ['b'])]⟩)]⟩ []
     ⟨[], [(['a'], ['b'])]⟩ (['a'], ['b']) (by decide) (by decide) (by decide)⟩

/-- Claim C8.  The encoder emits sections in name order and entries in
key order, omits the header of the empty-named main section, emits each
entry verbatim as `key=value\n` (the multi-character value `ā` passes
through), and produces the spec's example string; the second conjunct
builds the same document in reverse insertion order to exhibit that the
output order comes from the name/key order, not from insertion order. -/
theorem claimC8_encode_example :
    encode (dataAssignValue (dataAssignValue (dataAssignValue ⟨[]⟩ [] ['a'] ['a'])
        "foo".toList "bar".toList ['b']) "foo".toList "baz".toList ['ā']) false =
      "a=a\n[foo]\nbar=b\nbaz=ā\n".toList ∧
    encode (dataAssignValue (dataAssignValue (dataAssignValue ⟨[]⟩
        "foo".toList "baz".toList ['ā']) "foo".toList "bar".toList ['b']) [] ['a'] ['a']) false =
      "a=a\n[foo]\nbar=b\nbaz=ā\n".toList := by
  decide

/-- Claim C9.  Every section in a document produced by `parse`, and every
section freshly created by the auto-creating `Data::operator[]`, has an
empty internal `name` field: the section name lives only in the map key,
and `getName` returns the empty string regardless of that key. -/
theorem claimC9_section_names_empty :
    (∀ (inp : List Char) (d : Data), parse inp = .ok d →
      ∀ p ∈ d.sections, Section.getName p.2 = []) ∧
    (∀ (d : Data) (n : Str), mapFind d.sections n = none →
      Section.getName (d.subscript n).1 = []) := by
  constructor
  · intro inp d hparse p hp
    have hinv := parse_inv (fun d2 => ∀ p ∈ d2.sections, p.2.name = [])
      (by
        intro d2 n2 hP p2 hp2
        rcases dataAssignSection_mem d2 n2 p2 hp2 with h | h
        · exact hP p2 h
        · subst h; rfl)
      (by
        intro d2 n2 l key value j hkv hP p2 hp2
        rcases dataAssignValue_mem d2 n2 (trim key) (trim value) p2 hp2 with
          h | h | ⟨s2, hs2, hp3⟩
        · exact hP p2 h
        · subst h; rfl
        · subst hp3
          simp only [Section.assign]
          rcases hs2 with hs2 | hs2
          · exact hP (n2, s2) (mapFind_mem d2.sections n2 s2 hs2)
          · subst hs2; rfl)
      (by simp) inp d hparse
    exact hinv p hp
  · intro d n h
    simp [Data.subscript, h, Section.getName]

/-- Witness for C9 at `parse "[s]\na=b"` and a fresh auto-created
section. -/
theorem claimC9_witness :
    Section.getName ⟨[], [(['a'], ['b'])]⟩ = [] ∧
    Section.getName (Data.subscript ⟨[]⟩ ['x']).1 = [] :=
  ⟨claimC9_section_names_empty.1 ("[s]\na=b".toList) ⟨[(['s'], ⟨[], [(['a'], ['b'])]⟩)]⟩
     (by decide) (['s'], ⟨[], [(['a'], ['b'])]⟩) (by decide),
   claimC9_section_names_empty.2 ⟨[]⟩ ['x'] (by decide)⟩

/-- Claim C10.  A line parsed as a key/value entry that contains no `=`
does not make `parse` fail: whether the line ends at a newline, at a `;`
comment, or at end-of-input, the trimmed accumulated text becomes a key
mapped to the empty string in the current section. -/
theorem claimC10_line_without_equals (c : Char) (L2 rest junk : List Char)
    (sec : Str) (d : Data)
    (hL : ∀ x ∈ c :: L2, entryChar x)
    (hws : isWhitespace c = false) (hbr : c ≠ '[')
    (hjunk : ∀ x ∈ junk, x ≠ '\r' ∧ x ≠ '\n') :
    (parseRun (.within ((c :: L2) ++ '\n' :: rest)) sec d =
      parseRun (.within rest) sec (dataAssignValue d sec (trim (c :: L2)) [])) ∧
    (parseRun (.within (c :: L2)) sec d =
      .ok (dataAssignValue d sec (trim (c :: L2)) [])) ∧
    (parseRun (.within ((c :: L2) ++ ';' :: junk)) sec d =
      .ok (dataAssignValue d sec (trim (c :: L2)) [])) ∧
    (hasByteOrderMark (c :: L2) = false →
      parse (c :: L2) = .ok (dataAssignValue ⟨[]⟩ [] (trim (c :: L2)) [])) := by
  have hc := hL c (List.mem_cons_self c L2)
  have hdisp : ¬(isWhitespace c ∨ c = '\n' ∨ c = '\r') := by
    simp [hws, hc.2.2.2, hc.2.2.1]
  have hsemi : c ≠ ';' := hc.2.1
  have h1 : ∀ sec2 d2, parseRun (.within ((c :: L2) ++ '\n' :: rest)) sec2 d2 =
      parseRun (.within rest) sec2 (dataAssignValue d2 sec2 (trim (c :: L2)) []) := by
    intro sec2 d2
    have hkv : kvLoop ((c :: L2) ++ '\n' :: rest) [] [] false =
        .ok (c :: L2, [], .within rest) := by
      rw [kvLoop_key_acc (c :: L2) _ [] [] hL]
      simp [kvLoop]
    rw [List.cons_append] at hkv ⊢
    rw [parseRun_kvStep c (L2 ++ '\n' :: rest) sec2 (c :: L2) [] (.within rest) d2
      hdisp hbr hsemi hkv (by simp)]
    rfl
  have h2 : ∀ sec2 d2, parseRun (.within (c :: L2)) sec2 d2 =
      .ok (dataAssignValue d2 sec2 (trim (c :: L2)) []) := by
    intro sec2 d2
    have hkv : kvLoop (c :: L2) [] [] false = .ok (c :: L2, [], .within []) := by
      have hsh : c :: L2 = (c :: L2) ++ [] := by simp
      rw [hsh, kvLoop_key_acc (c :: L2) [] [] [] hL]
      simp [kvLoop]
    rw [parseRun_kvStep c L2 sec2 (c :: L2) [] (.within []) d2 hdisp hbr hsemi hkv (by simp)]
    rw [parseRun_nil]
    rfl
  have h3 : ∀ sec2 d2, parseRun (.within ((c :: L2) ++ ';' :: junk)) sec2 d2 =
      .ok (dataAssignValue d2 sec2 (trim (c :: L2)) []) := by
    intro sec2 d2
    have hkv : kvLoop ((c :: L2) ++ ';' :: junk) [] [] false =
        .ok (c :: L2, [], .within []) := by
      rw [kvLoop_key_acc (c :: L2) _ [] [] hL]
      have hsc : ¬((';' : Char) = '\r' ∨ (';' : Char) = '\n') := by decide
      simp only [kvLoop, hsc, if_false, if_true, Bool.false_eq_true]
      rw [skipToEol_all junk hjunk]
      simp
    rw [List.cons_append] at hkv ⊢
    rw [parseRun_kvStep c (L2 ++ ';' :: junk) sec2 (c :: L2) [] (.within []) d2
      hdisp hbr hsemi hkv (by simp)]
    rw [parseRun_nil]
    rfl
  refine ⟨h1 sec d, h2 sec d, h3 sec d, ?_⟩
  intro hbom
  rw [parse_eq_parseRun, hbom]
  simp only [Bool.false_eq_true, if_false]
  exact h2 [] ⟨[]⟩

/-- Witness for C10 at the line `flag` with its three endings. -/
theorem claimC10_witness :
    (parseRun (.within ("flag".toList ++ '\n' :: "x=y".toList)) [] ⟨[]⟩ =
      parseRun (.within "x=y".toList) [] (dataAssignValue ⟨[]⟩ [] (trim "flag".toList) [])) ∧
    (parseRun (.within "flag".toList) [] ⟨[]⟩ =
      .ok (dataAssignValue ⟨[]⟩ [] (trim "flag".toList) [])) ∧
    (parseRun (.within ("flag".toList ++ ';' :: "c".toList)) [] ⟨[]⟩ =
      .ok (dataAssignValue ⟨[]⟩ [] (trim "flag".toList) [])) ∧
    parse ("flag".toList) = .ok (dataAssignValue ⟨[]⟩ [] (trim "flag".toList) []) := by
  have h := claimC10_line_without_equals 'f' "lag".toList "x=y".toList "c".toList [] ⟨[]⟩
    (by decide) (by decide) (by decide) (by decide)
  exact ⟨h.1, h.2.1, h.2.2.1, h.2.2.2 (by decide)⟩

end Ini
